import Mathlib

/-!
Verification development for the document-processing engine in
`document-agent.py`: chapter splitting of markdown text, the structured
editor (replace / insert / rewrite operations), the markdown→Word
converter, and the chapter merger.  Text is modelled as `List Char`
(`String.toList`), files as explicit contents, and the Python `re`
module (an external library) as an abstract `RegexEngine` parameter
wherever a pattern is consulted; the literal-string paths, which the
claims are about, are embedded concretely.
-/

/-- Python whitespace (`str.strip`, regex `\s`), ASCII range. -/
def isPyWs (c : Char) : Bool :=
  c = ' ' || c = '\t' || c = '\n' || c = '\r' || c = '\x0b' || c = '\x0c'

/-- Python `s.strip()`: drop whitespace from both ends. -/
def pyStrip (s : List Char) : List Char :=
  ((s.dropWhile isPyWs).reverse.dropWhile isPyWs).reverse

/-- Python `t in s`: substring occurrence test. -/
def pyIn (t : List Char) : List Char → Bool
  | [] => t.isEmpty
  | c :: s' => t.isPrefixOf (c :: s') || pyIn t s'

/-- Fuel-driven body of Python `s.count(t)`: number of non-overlapping
occurrences, scanning left to right; `s.count("")` is `s.length + 1`. -/
def pyCountF : Nat → List Char → List Char → Nat
  | _, s, [] => s.length + 1
  | _, [], _ :: _ => 0
  | 0, _ :: _, _ :: _ => 0
  | f + 1, c :: s', t =>
    if t.isPrefixOf (c :: s') then 1 + pyCountF f ((c :: s').drop t.length) t
    else pyCountF f s' t

/-- Python `s.count(t)`. -/
def pyCount (s t : List Char) : Nat := pyCountF s.length s t

/-- Python `s.replace("", r)`: `r` interleaved before every character and at the end. -/
def pyReplaceEmpty (r : List Char) : List Char → List Char
  | [] => r
  | c :: s => r ++ c :: pyReplaceEmpty r s

/-- Fuel-driven body of Python `s.replace(t, r)`: replace non-overlapping
occurrences left to right. -/
def pyReplaceF : Nat → List Char → List Char → List Char → List Char
  | _, s, [], r => pyReplaceEmpty r s
  | _, [], _ :: _, _ => []
  | 0, s, _ :: _, _ => s
  | f + 1, c :: s', t, r =>
    if t.isPrefixOf (c :: s') then r ++ pyReplaceF f ((c :: s').drop t.length) t r
    else c :: pyReplaceF f s' t r

/-- Python `s.replace(t, r)`. -/
def pyReplace (s t r : List Char) : List Char := pyReplaceF s.length s t r

/-- Python `list.insert(i, x)` (index clamped to the list length). -/
def pyInsert (xs : List α) (i : Nat) (x : α) : List α :=
  xs.take i ++ x :: xs.drop i

/-- Split a character buffer into lines at `'\n'` (the separators removed). -/
def splitLines : List Char → List (List Char)
  | [] => [[]]
  | c :: rest =>
    if c = '\n' then [] :: splitLines rest
    else
      match splitLines rest with
      | [] => [[c]]
      | l :: ls => (c :: l) :: ls

/-! ## Chapter splitter (`MarkdownSplitter._split_markdown`)

The source splits the file content with
`re.split(r'^#\s+(.+)$', content, flags=re.MULTILINE)` and writes, for the
`i`-th captured title, a file `"# {title}\n\n{content}"` with the title
stripped; `sections[0]` (the text before the first match) is never written.
The regex is embedded at character level: at a line start, `#`, then a
greedy backtracking `\s+`, then `(.+)` — a non-empty run of non-newline
characters reaching the end of the line. -/

/-- Backtracking of `\s+` inside `^#\s+(.+)$`: starting from the maximal
whitespace run length, find the longest length `j ≥ 1` such that the
character following the first `j` characters of `t` exists and is not a
newline (so that `(.+)$` can match). -/
def wsTryLen (t : List Char) : Nat → Option Nat
  | 0 => none
  | j + 1 =>
    match t.drop (j + 1) with
    | [] => wsTryLen t j
    | c :: _ => if c = '\n' then wsTryLen t j else some (j + 1)

/-- Attempt to match `^#\s+(.+)$` at the start of `s` (assumed to be a line
start).  Returns the captured group and the remaining text after the match
(the match ends just before the line's newline, which therefore stays in
the remainder). -/
def tryMatch (s : List Char) : Option (List Char × List Char) :=
  match s with
  | [] => none
  | c :: t =>
    if c = '#' then
      match wsTryLen t (t.takeWhile isPyWs).length with
      | some j =>
        let u := t.drop j
        let title := u.takeWhile (fun ch => !(ch == '\n'))
        some (title, u.drop title.length)
      | none => none
    else none

/-- One scan of `re.split(r'^#\s+(.+)$', ·, re.MULTILINE)`: returns the text
before the first match and the list of (captured title, following section)
pairs.  `atStart` tracks whether the current position is a line start; the
fuel argument (any value `≥` the length of the text) makes the recursion
structural. -/
def scanSplitFuel : Nat → List Char → Bool → List Char × List (List Char × List Char)
  | _, [], _ => ([], [])
  | 0, _ :: _, _ => ([], [])
  | f + 1, c :: rest, atStart =>
    if atStart then
      match tryMatch (c :: rest) with
      | some (title, after) =>
        let p := scanSplitFuel f after false
        ([], (title, p.1) :: p.2)
      | none =>
        let p := scanSplitFuel f rest (c == '\n')
        (c :: p.1, p.2)
    else
      let p := scanSplitFuel f rest (c == '\n')
      (c :: p.1, p.2)

/-- The section decomposition computed by `_split_markdown`'s `re.split`. -/
def scanSplit (s : List Char) : List Char × List (List Char × List Char) :=
  scanSplitFuel s.length s true

/-- `MarkdownSplitter._split_markdown`: the list of chapter file contents
written for a given input content (file names disregarded). -/
def split_markdown (content : List Char) : List (List Char) :=
  (scanSplit content).2.map fun ts =>
    "# ".toList ++ pyStrip ts.1 ++ "\n\n".toList ++ ts.2

/-- Modelled from the claim's words: a top-level heading is a line that is
`'#'` followed by a space and a non-empty title; `specHeadingCount` counts
such lines in a document. -/
def specHeadingCount (content : List Char) : Nat :=
  ((splitLines content).filter fun l =>
    match l with
    | '#' :: ' ' :: rest => !rest.isEmpty
    | _ => false).length

/-- `noMatchThrough p s b = true` states that while scanning `p ++ s`
starting inside `p` with line-start flag `b`, no heading match begins at any
position of `p`. -/
def noMatchThrough : List Char → List Char → Bool → Bool
  | [], _, _ => true
  | c :: p', s, atStart =>
    (!atStart || (tryMatch (c :: (p' ++ s))).isNone) && noMatchThrough p' s (c == '\n')

/-- Line-start flag after consuming `p`, starting from flag `b`. -/
def lineStartAfter (p : List Char) (b : Bool) : Bool :=
  p.foldl (fun _ c => c == '\n') b

/-! ## Structured editor (`MarkdownEditor`)

The editor reads the file into a line buffer (`readlines`), applies the
operations in order, and writes the buffer back once iff some operation
changed it.  Calls into Python's `re` module are abstracted as a
`RegexEngine`; everything else is embedded concretely. -/

/-- The operations of Python's `re` module used by the editor, as an
abstract parameter: `findall pattern line`, `sub pattern repl line`, and
`search pattern line` (as a Boolean). -/
structure RegexEngine where
  findall : List Char → List Char → List (List Char)
  sub : List Char → List Char → List Char → List Char
  search : List Char → List Char → Bool

/-- A concrete engine (matching nothing) used to instantiate witnesses on
operations that never consult the regex path. -/
def E0 : RegexEngine where
  findall := fun _ _ => []
  sub := fun _ _ l => l
  search := fun _ _ => false

/-- One edit operation, after the defaulting done by `_process_operations`
(`position` defaults to `"after"`, `options` to not-regex /
preserve-format). -/
structure EditOp where
  type : List Char
  target : List Char
  content : List Char
  position : List Char := "after".toList
  is_regex : Bool := false
  preserve_format : Bool := true
deriving DecidableEq, Repr

/-- The per-operation record built by `_process_operations` (absent
dictionary keys modelled as `none`). -/
structure OpDetail where
  type : List Char
  target : List Char
  content : List Char
  position : Option (List Char)
  old_content : Option (List Char)
  modified_count : Option Nat
  line_number : Option Nat
deriving DecidableEq, Repr

/-- `MarkdownEditor._replace_content`: per line, when the target occurs
(literally, or via `findall` when `is_regex`), replace all occurrences and
accumulate the occurrence count; `old_content` is the original text of the
last matching line. -/
def replace_content (E : RegexEngine) :
    List (List Char) → List Char → List Char → Bool →
      List (List Char) × Nat × Option (List Char)
  | [], _, _, _ => ([], 0, none)
  | l :: ls, t, c, ir =>
    let rest := replace_content E ls t c ir
    if ir then
      match E.findall t l with
      | [] => (l :: rest.1, rest.2.1, rest.2.2)
      | ms => (E.sub t c l :: rest.1, ms.length + rest.2.1, rest.2.2 <|> some l)
    else
      if pyIn t l then
        (pyReplace l t c :: rest.1, pyCount l t + rest.2.1, rest.2.2 <|> some l)
      else (l :: rest.1, rest.2.1, rest.2.2)

/-- Loop body of `MarkdownEditor._insert_content`: iterate over the original
buffer with its original indices `i`, appending each line to `new_lines` and,
on a match, inserting `content ++ "\n"` into `new_lines` at index `i`
(`before`) or `i + 1` (`after`). -/
def insertLoop (E : RegexEngine) (t c pos : List Char) (ir : Bool) :
    Nat → List (List Char) → List (List Char) → Bool → List (List Char) × Bool
  | _, newLines, [], changed => (newLines, changed)
  | i, newLines, l :: rest, changed =>
    let nl := newLines ++ [l]
    let m := if ir then E.search t l else pyIn t l
    let nl2 :=
      if m then
        if pos = "before".toList then pyInsert nl i (c ++ ['\n'])
        else pyInsert nl (i + 1) (c ++ ['\n'])
      else nl
    insertLoop E t c pos ir (i + 1) nl2 rest (changed || m)

/-- `MarkdownEditor._insert_content`. -/
def insert_content (E : RegexEngine) (lines : List (List Char))
    (t c pos : List Char) (ir : Bool) : List (List Char) × Bool :=
  insertLoop E t c pos ir 0 [] lines false

/-- The inline-format-marker pattern of `_rewrite_content`. -/
def mdMarkerPattern : List Char := "(\\*\\*.*?\\*\\*|_.*?_|`.*?`)".toList

/-- `MarkdownEditor._rewrite_content`: per line containing the target
literally — with `preserve_format`, run the marker loop (replacing each
found marker by itself in the replacement text) and substitute the target;
otherwise replace the whole line by the new content. -/
def rewrite_content (E : RegexEngine) :
    List (List Char) → List Char → List Char → Bool →
      List (List Char) × Bool × Option (List Char)
  | [], _, _, _ => ([], false, none)
  | l :: ls, t, c, pf =>
    let rest := rewrite_content E ls t c pf
    if pyIn t l && pf then
      let elems := E.findall mdMarkerPattern l
      let newLine := elems.foldl (fun nl e => if pyIn e nl then pyReplace nl e e else nl) c
      (pyReplace l t newLine :: rest.1, true, rest.2.2 <|> some l)
    else if pyIn t l then
      (c :: rest.1, true, rest.2.2 <|> some l)
    else
      (l :: rest.1, rest.2.1, rest.2.2)

/-- The best-effort line-number re-scan after a changed operation: the last
1-based index of a buffer line satisfying the predicate, if any. -/
def findLineNumber (p : List Char → Bool) (buf : List (List Char)) : Option Nat :=
  (buf.foldl (fun (acc : Option Nat × Nat) l =>
    (if p l then some (acc.2 + 1) else acc.1, acc.2 + 1)) (none, 0)).1

/-- Result of a successful `_process_operations` run, before persistence. -/
structure ProcResult where
  buffer : List (List Char)
  modified : Bool
  details : List OpDetail
  modified_positions : Nat
deriving DecidableEq, Repr

/-- The operation loop of `_process_operations`: threads the buffer, the
`modified` flag, and the accumulated details; an unknown operation type
raises (modelled as `Except.error` carrying the message). -/
def procLoop (E : RegexEngine) :
    List (List Char) → Bool → List OpDetail → List EditOp →
      Except (List Char) (List (List Char) × Bool × List OpDetail)
  | buf, m, acc, [] => .ok (buf, m, acc)
  | buf, m, acc, op :: rest =>
    if op.type = "replace".toList then
      let r := replace_content E buf op.target op.content op.is_regex
      let changed := 0 < r.2.1
      let d : OpDetail :=
        { type := op.type, target := op.target, content := op.content
          position := none
          old_content := if 0 < r.2.1 then r.2.2 else none
          modified_count := some r.2.1
          line_number := if changed then findLineNumber (pyIn op.target) r.1 else none }
      procLoop E r.1 (m || changed) (acc ++ [d]) rest
    else if op.type = "insert".toList then
      let r := insert_content E buf op.target op.content op.position op.is_regex
      let d : OpDetail :=
        { type := op.type, target := op.target, content := op.content
          position := some op.position
          old_content := none
          modified_count := none
          line_number := if r.2 then findLineNumber (pyIn op.content) r.1 else none }
      procLoop E r.1 (m || r.2) (acc ++ [d]) rest
    else if op.type = "rewrite".toList then
      let r := rewrite_content E buf op.target op.content op.preserve_format
      let d : OpDetail :=
        { type := op.type, target := op.target, content := op.content
          position := none
          old_content := if r.2.1 then r.2.2 else none
          modified_count := none
          line_number := none }
      procLoop E r.1 (m || r.2.1) (acc ++ [d]) rest
    else
      .error ("未知操作类型: ".toList ++ op.type)

/-- The final `modified_positions` summation of `_process_operations`:
details of type `replace` whose `old_content` is present contribute their
`modified_count`. -/
def sumModifiedPositions (details : List OpDetail) : Nat :=
  (details.map fun d =>
    if d.type = "replace".toList ∧ d.old_content.isSome = true then d.modified_count.getD 0
    else 0).sum

/-- `MarkdownEditor._process_operations` on an in-memory buffer. -/
def process_operations (E : RegexEngine) (lines : List (List Char))
    (ops : List EditOp) : Except (List Char) ProcResult :=
  match procLoop E lines false [] ops with
  | .error e => .error e
  | .ok (buf, m, det) =>
    .ok { buffer := buf, modified := m, details := det
          modified_positions := sumModifiedPositions det }

/-- The file content after an editor invocation: written back only when the
run succeeded and reported `modified`; on an aborted batch the file keeps
its previous content. -/
def run_editor (E : RegexEngine) (lines : List (List Char))
    (ops : List EditOp) : List (List Char) :=
  match process_operations E lines ops with
  | .error _ => lines
  | .ok r => if r.modified then r.buffer else lines

/-! ## Markdown → Word converter (`MarkdownToWordTool._markdown_to_word`)

The converter walks the file line by line (each line `strip`ped first).
Pipe-delimited rows are buffered; on the first non-row line a pending
buffer of more than one row is emitted as a table (header = row 0, body =
rows from index 2).  Then the same line is classified as heading / image /
paragraph text / blank.  Output is the ordered list of document items; a
table buffer still pending when the input ends is never emitted.  The
image-reference regex and the filesystem-dependent `add_picture` are
abstract parameters (`imgM`, `embedOk`). -/

/-- A block item added to the Word document. -/
inductive DocItem
  | heading (level : Nat) (text : List Char)
  | table (header : List (List Char)) (body : List (List (List Char)))
  | para (runs : List (List Char))
  | image (path : List Char)
deriving DecidableEq, Repr

/-- Converter state: emitted items, the index of the paragraph currently
accepting runs, and the pending table buffer. -/
structure MdState where
  items : List DocItem
  curPara : Option Nat
  inTable : Bool
  tableRows : List (List (List Char))
deriving Repr

/-- A stripped line is a table row when it starts and ends with `'|'`. -/
def isTableRowLine (l : List Char) : Bool :=
  match l with
  | [] => false
  | c :: rest => c = '|' && (rest.getLastD c) = '|'

/-- The cells of a table-row line: `line.split('|')[1:-1]`, each cell
stripped. -/
def rowCells (l : List Char) : List (List Char) :=
  (((l.splitOn '|').drop 1).dropLast).map pyStrip

/-- Replace the element at index `i` (out-of-range indices leave the list
unchanged). -/
def updateAt (xs : List α) (i : Nat) (f : α → α) : List α :=
  xs.take i ++ (match xs.drop i with
  | [] => []
  | x :: r => f x :: r)

/-- Append one more run to a paragraph item. -/
def addRun (l : List Char) : DocItem → DocItem
  | .para runs => .para (runs ++ [l])
  | it => it

/-- Flush a pending table buffer (`elif in_table:` branch): a buffer of more
than one row becomes a table from its header row and the rows from index 2;
a body row wider than the header overflows the allocated cells
(`IndexError`, aborting the conversion). -/
def flushTable (σ : MdState) : Except Unit MdState :=
  if σ.inTable then
    if 1 < σ.tableRows.length then
      let hdr := σ.tableRows.headD []
      if (σ.tableRows.drop 2).any (fun row => hdr.length < row.length) then .error ()
      else .ok { σ with items := σ.items ++ [.table hdr (σ.tableRows.drop 2)], inTable := false }
    else .ok { σ with inTable := false }
  else .ok σ

/-- Process one line of `_markdown_to_word` (the loop body). -/
def mdStep (imgM : List Char → Option (List Char)) (embedOk : List Char → Bool)
    (σ : MdState) (raw : List Char) : Except Unit MdState :=
  let line := pyStrip raw
  if isTableRowLine line then
    .ok (if σ.inTable then { σ with tableRows := σ.tableRows ++ [rowCells line] }
         else { σ with inTable := true, tableRows := [rowCells line] })
  else
    match flushTable σ with
    | .error e => .error e
    | .ok σ1 =>
      if line.headD ' ' = '#' then
        let level := pyCount line ['#']
        if 9 < level then .error ()
        else .ok { σ1 with
          items := σ1.items ++ [.heading level (pyStrip (line.dropWhile (· = '#')))] }
      else if "![".toList.isPrefixOf line then
        match imgM line with
        | some p => if embedOk p then .ok { σ1 with items := σ1.items ++ [.image p] } else .ok σ1
        | none => .ok σ1
      else if line ≠ [] then
        match σ1.curPara with
        | none => .ok { σ1 with items := σ1.items ++ [.para [line]],
                                curPara := some σ1.items.length }
        | some i => .ok { σ1 with items := updateAt σ1.items i (addRun line) }
      else
        .ok { σ1 with curPara := none }

/-- Run the converter loop over all lines from a state. -/
def mdRun (imgM : List Char → Option (List Char)) (embedOk : List Char → Bool) :
    MdState → List (List Char) → Except Unit MdState
  | σ, [] => .ok σ
  | σ, l :: ls =>
    match mdStep imgM embedOk σ l with
    | .error e => .error e
    | .ok σ' => mdRun imgM embedOk σ' ls

/-- `MarkdownToWordTool._markdown_to_word`: the ordered document items
produced from the file's lines (a still-pending table buffer at the end of
the input is dropped). -/
def markdown_to_word (imgM : List Char → Option (List Char))
    (embedOk : List Char → Bool) (lines : List (List Char)) :
    Except Unit (List DocItem) :=
  match mdRun imgM embedOk { items := [], curPara := none, inTable := false, tableRows := [] } lines with
  | .error e => .error e
  | .ok σ => .ok σ.items

/-- Image matcher that finds no reference (for concrete instantiations). -/
def noImg : List Char → Option (List Char) := fun _ => none

/-- Image embedder that always fails (for concrete instantiations). -/
def noEmbed : List Char → Bool := fun _ => false

/-- Modelled from the claim's words: the count of leading `'#'` characters
of a line. -/
def specLeadingHashCount (l : List Char) : Nat :=
  (l.takeWhile (· = '#')).length

/-! ## Chapter merger (`ChapterMarkdownMerger._merge_chapters`)

Every path is validated first (existence via `os.path.exists`, extension
via `.lower().endswith('.md')`); only after the whole list passes are the
files read, concatenated with `\n\n---\n\n` separators, and the output
written.  The filesystem is a map from (absolute) path to content, and
`os.path.abspath` an abstract parameter; reads and the final write are
recorded as events. -/

/-- A filesystem access performed by the merger. -/
inductive FsEvent
  | read (p : List Char)
  | write (p : List Char)
deriving DecidableEq, Repr

/-- The validation loop of `_merge_chapters`: absolutize each path, fail on
the first one that does not exist or does not end in `.md` (case folded),
otherwise collect the absolute paths. -/
def validatePaths (fs : List Char → Option (List Char))
    (abspath : List Char → List Char) :
    List (List Char) → Except (List Char) (List (List Char))
  | [] => .ok []
  | p :: rest =>
    let a := abspath p
    if (fs a).isNone then .error ("文件不存在: ".toList ++ a)
    else if !(".md".toList.isSuffixOf (a.map Char.toLower)) then
      .error ("非Markdown文件: ".toList ++ a)
    else
      match validatePaths fs abspath rest with
      | .error e => .error e
      | .ok v => .ok (a :: v)

/-- The concatenation loop of `_merge_chapters`: each file's content is
stripped; every file but the first is preceded by the separator. -/
def mergeContent (fs : List Char → Option (List Char)) :
    List (List Char) → Bool → List Char
  | [], _ => []
  | a :: rest, isFirst =>
    (if isFirst then pyStrip ((fs a).getD [])
     else "\n\n---\n\n".toList ++ pyStrip ((fs a).getD [])) ++ mergeContent fs rest false

/-- `ChapterMarkdownMerger._merge_chapters`: the outcome (merged content or
error message) together with the filesystem accesses performed. -/
def merge_chapters (fs : List Char → Option (List Char))
    (abspath : List Char → List Char) (paths : List (List Char))
    (out : List Char) : Except (List Char) (List Char) × List FsEvent :=
  match validatePaths fs abspath paths with
  | .error e => (.error e, [])
  | .ok v => (.ok (mergeContent fs v true), v.map FsEvent.read ++ [FsEvent.write out])

/-- An empty filesystem (for concrete instantiations). -/
def fs0 : List Char → Option (List Char) := fun _ => none

/-! ## Basic lemmas about the Python string primitives -/

theorem isPrefixOf_append_drop :
    ∀ t s : List Char, t.isPrefixOf s = true → t ++ s.drop t.length = s
  | [], s, _ => by simp
  | c :: t', [], h => by simp [List.isPrefixOf] at h
  | c :: t', d :: s', h => by
    simp only [List.isPrefixOf, Bool.and_eq_true, beq_iff_eq] at h
    simp only [List.cons_append, List.length_cons, List.drop_succ_cons, h.1,
      List.cons.injEq, true_and]
    exact isPrefixOf_append_drop t' s' h.2

theorem pyIn_not_isPrefixOf {t s : List Char} (h : pyIn t s = false) :
    t.isPrefixOf s = false := by
  cases s with
  | nil =>
    simp only [pyIn, List.isEmpty_iff] at h
    cases t with
    | nil => simp at h
    | cons c t' => simp [List.isPrefixOf]
  | cons c s' =>
    simp only [pyIn, Bool.or_eq_false_iff] at h
    exact h.1

theorem pyIn_tail {t : List Char} {c : Char} {s : List Char}
    (h : pyIn t (c :: s) = false) : pyIn t s = false := by
  simp only [pyIn, Bool.or_eq_false_iff] at h
  exact h.2

theorem pyIn_nil : ∀ s : List Char, pyIn [] s = true
  | [] => rfl
  | c :: s' => by simp [pyIn, List.isPrefixOf]

theorem pyCountF_eq_zero {t : List Char} :
    ∀ f s, pyIn t s = false → pyCountF f s t = 0 := by
  intro f
  induction f with
  | zero =>
    intro s h
    cases t with
    | nil => rw [pyIn_nil] at h; cases h
    | cons a t' => cases s <;> simp [pyCountF]
  | succ f ih =>
    intro s h
    cases t with
    | nil => rw [pyIn_nil] at h; cases h
    | cons a t' =>
      cases s with
      | nil => simp [pyCountF]
      | cons c s' =>
        simp only [pyCountF, pyIn_not_isPrefixOf h, Bool.false_eq_true, if_false]
        exact ih s' (pyIn_tail h)

theorem pyCount_eq_zero {t s : List Char} (h : pyIn t s = false) :
    pyCount s t = 0 :=
  pyCountF_eq_zero s.length s h

theorem pyCountF_pos {t : List Char} :
    ∀ f s, s.length ≤ f → pyIn t s = true → 0 < pyCountF f s t := by
  intro f
  induction f with
  | zero =>
    intro s hf h
    have : s = [] := List.eq_nil_of_length_eq_zero (Nat.le_zero.mp hf)
    subst this
    cases t with
    | nil => simp [pyCountF]
    | cons a t' => simp [pyIn] at h
  | succ f ih =>
    intro s hf h
    cases t with
    | nil => cases s <;> simp [pyCountF]
    | cons a t' =>
      cases s with
      | nil => simp [pyIn] at h
      | cons c s' =>
        simp only [pyCountF]
        cases hp : (a :: t').isPrefixOf (c :: s') with
        | true => simp
        | false =>
          simp only [Bool.false_eq_true, if_false]
          have h' : pyIn (a :: t') s' = true := by
            simp only [pyIn, hp, Bool.false_or] at h
            exact h
          have hf' : s'.length ≤ f := by
            simp only [List.length_cons] at hf
            omega
          exact ih s' hf' h'

theorem pyCount_pos {t s : List Char} (h : pyIn t s = true) :
    0 < pyCount s t :=
  pyCountF_pos s.length s (Nat.le_refl _) h

theorem pyReplaceF_id {t r : List Char} :
    ∀ f s, pyIn t s = false → pyReplaceF f s t r = s := by
  intro f
  induction f with
  | zero =>
    intro s h
    cases t with
    | nil => rw [pyIn_nil] at h; cases h
    | cons a t' => cases s <;> simp [pyReplaceF]
  | succ f ih =>
    intro s h
    cases t with
    | nil => rw [pyIn_nil] at h; cases h
    | cons a t' =>
      cases s with
      | nil => simp [pyReplaceF]
      | cons c s' =>
        simp only [pyReplaceF, pyIn_not_isPrefixOf h, Bool.false_eq_true, if_false,
          List.cons.injEq, true_and]
        exact ih s' (pyIn_tail h)

theorem pyReplace_id {t r s : List Char} (h : pyIn t s = false) :
    pyReplace s t r = s :=
  pyReplaceF_id s.length s h

theorem pyReplaceEmpty_nil : ∀ s : List Char, pyReplaceEmpty [] s = s
  | [] => rfl
  | c :: s => by simp [pyReplaceEmpty, pyReplaceEmpty_nil s]

theorem pyReplaceF_self {t : List Char} :
    ∀ f s, s.length ≤ f → pyReplaceF f s t t = s := by
  intro f
  induction f with
  | zero =>
    intro s hf
    have : s = [] := List.eq_nil_of_length_eq_zero (Nat.le_zero.mp hf)
    subst this
    cases t with
    | nil => simp [pyReplaceF, pyReplaceEmpty]
    | cons a t' => simp [pyReplaceF]
  | succ f ih =>
    intro s hf
    cases t with
    | nil => simp [pyReplaceF, pyReplaceEmpty_nil]
    | cons a t' =>
      cases s with
      | nil => simp [pyReplaceF]
      | cons c s' =>
        simp only [pyReplaceF]
        cases hp : (a :: t').isPrefixOf (c :: s') with
        | true =>
          simp only [if_true]
          have hlen : ((c :: s').drop (a :: t').length).length ≤ f := by
            simp only [List.length_drop]
            simp only [List.length_cons] at hf ⊢
            omega
          rw [ih _ hlen]
          exact isPrefixOf_append_drop _ _ hp
        | false =>
          simp only [Bool.false_eq_true, if_false]
          have hf' : s'.length ≤ f := by
            simp only [List.length_cons] at hf
            omega
          rw [ih s' hf']

theorem pyReplace_self {t s : List Char} : pyReplace s t t = s :=
  pyReplaceF_self s.length s (Nat.le_refl _)

/-! ## Claims about the merger (C1, C8) -/

/-- C1 (counterexample): merging an empty list of file paths does not fail —
the validation loop is vacuous, the merge succeeds with empty content, and
the output file is written.  This refutes the claim that an empty list
yields an `InvalidArgument`-class error with no output file. -/
theorem C1_counterexample :
    (merge_chapters fs0 (fun p => p) [] "merged.md".toList).1 = .ok [] ∧
    (merge_chapters fs0 (fun p => p) [] "merged.md".toList).2 =
      [FsEvent.write "merged.md".toList] := by
  exact ⟨rfl, rfl⟩

/-- C1 (amended): merging an empty list of file paths succeeds: for every
filesystem, path-resolution function and output path, the merge returns
empty merged content and performs exactly one write (of the output file),
reading nothing. -/
theorem C1_amended (fs : List Char → Option (List Char))
    (abspath : List Char → List Char) (out : List Char) :
    merge_chapters fs abspath [] out = (.ok [], [FsEvent.write out]) := rfl

theorem validatePaths_error_of_invalid
    (fs : List Char → Option (List Char)) (abspath : List Char → List Char) :
    ∀ paths : List (List Char),
      (∃ p ∈ paths, (fs (abspath p)).isNone = true ∨
        ".md".toList.isSuffixOf ((abspath p).map Char.toLower) = false) →
      ∃ e, validatePaths fs abspath paths = .error e := by
  intro paths
  induction paths with
  | nil => rintro ⟨p, hp, _⟩; cases hp
  | cons q rest ih =>
    rintro ⟨p, hp, hbad⟩
    simp only [validatePaths]
    cases hq : (fs (abspath q)).isNone with
    | true => exact ⟨"文件不存在: ".toList ++ abspath q, by simp [hq]⟩
    | false =>
      simp only [hq, Bool.false_eq_true, if_false]
      cases hm : ".md".toList.isSuffixOf ((abspath q).map Char.toLower) with
      | false => exact ⟨"非Markdown文件: ".toList ++ abspath q, by simp [hq, hm]⟩
      | true =>
        simp only [hm, Bool.not_true, Bool.false_eq_true, if_false]
        have hpr : p ∈ rest := by
          rcases List.mem_cons.mp hp with h | h
          · subst h
            rcases hbad with h1 | h1
            · rw [hq] at h1; cases h1
            · rw [hm] at h1; cases h1
          · exact h
        obtain ⟨e, he⟩ := ih ⟨p, hpr, hbad⟩
        exact ⟨e, by rw [he]⟩

/-- C8: the merge operation validates every input path before touching any
file content: if some path does not exist or does not end in `.md`
(case-insensitively), the merge fails with an error and performs no
filesystem access at all — no input file is read and no output file is
written. -/
theorem C8_merge_validates_first
    (fs : List Char → Option (List Char)) (abspath : List Char → List Char)
    (paths : List (List Char)) (out : List Char)
    (h : ∃ p ∈ paths, (fs (abspath p)).isNone = true ∨
      ".md".toList.isSuffixOf ((abspath p).map Char.toLower) = false) :
    (∃ e, (merge_chapters fs abspath paths out).1 = .error e) ∧
    (merge_chapters fs abspath paths out).2 = [] := by
  obtain ⟨e, he⟩ := validatePaths_error_of_invalid fs abspath paths h
  constructor
  · exact ⟨e, by simp [merge_chapters, he]⟩
  · simp [merge_chapters, he]

/-- C8 (witness): merging the single path `"a.txt"` over an empty
filesystem fails and performs no read or write. -/
theorem C8_witness :
    (∃ e, (merge_chapters fs0 (fun p => p) ["a.txt".toList] "merged.md".toList).1 = .error e) ∧
    (merge_chapters fs0 (fun p => p) ["a.txt".toList] "merged.md".toList).2 = [] :=
  C8_merge_validates_first fs0 (fun p => p) ["a.txt".toList] "merged.md".toList
    ⟨"a.txt".toList, by simp, Or.inl rfl⟩

/-! ## Claims about the editor's insert operation (C2) -/

/-- C2 (code evaluation at the failing input): inserting `"c"` after target
`"a"` into the buffer `["a\n", "a\n"]` yields `["a\n", "c\n", "c\n", "a\n"]`:
the loop inserts at the matched line's index in the *original* buffer,
which in the already-grown output places the second match's new line
*before* the second matched line, not immediately after it as the claim
states (`["a\n", "c\n", "a\n", "c\n"]`). -/
theorem C2_insert_eval :
    insert_content E0 ["a\n".toList, "a\n".toList] "a".toList "c".toList
      "after".toList false =
      (["a\n".toList, "c\n".toList, "c\n".toList, "a\n".toList], true) := by
  rfl

/-! ## Claims about the converter's heading handling (C3, C10) -/

/-- C3 (code evaluation at the failing input): for the heading line
`"# A # B"` the converter emits a heading of level `line.count('#') = 2`,
counting every `'#'` in the line, while the leading-`'#'` count — the level
required by the claim, and the convention used by the converter's own
`lstrip('#')` text extraction — is `1`. -/
theorem C3_heading_eval :
    markdown_to_word noImg noEmbed ["# A # B\n".toList] =
      .ok [DocItem.heading 2 "A # B".toList] ∧
    specLeadingHashCount (pyStrip "# A # B\n".toList) = 1 := by
  exact ⟨rfl, rfl⟩

/-! ## Claims about replace and rewrite (C6, C9) -/

theorem replace_content_literal (E : RegexEngine) (t c : List Char) :
    ∀ lines : List (List Char),
      (replace_content E lines t c false).1 = lines.map (fun l => pyReplace l t c) ∧
      (replace_content E lines t c false).2.1 = (lines.map (fun l => pyCount l t)).sum := by
  intro lines
  induction lines with
  | nil => exact ⟨rfl, rfl⟩
  | cons l ls ih =>
    simp only [replace_content, Bool.false_eq_true, if_false, List.map_cons, List.sum_cons]
    cases hin : pyIn t l with
    | true =>
      simp only [if_true]
      exact ⟨by rw [ih.1], by rw [ih.2]⟩
    | false =>
      simp only [Bool.false_eq_true, if_false]
      constructor
      · rw [ih.1, pyReplace_id hin]
      · rw [ih.2, pyCount_eq_zero hin, Nat.zero_add]

/-- C6: a literal `replace` operation replaces every (non-overlapping)
occurrence of the target on every line and reports a count equal to the
total number of occurrences across all lines; in particular, replacing
`"foo"` by `"bar"` in the buffer `["foo foo\n"]` yields `["bar bar\n"]`
with a count of `2` (and `old_content` the original line). -/
theorem C6_replace_all (E : RegexEngine) (lines : List (List Char)) (t c : List Char) :
    (replace_content E lines t c false).1 = lines.map (fun l => pyReplace l t c) ∧
    (replace_content E lines t c false).2.1 = (lines.map (fun l => pyCount l t)).sum ∧
    replace_content E ["foo foo\n".toList] "foo".toList "bar".toList false =
      (["bar bar\n".toList], 2, some "foo foo\n".toList) :=
  ⟨(replace_content_literal E t c lines).1, (replace_content_literal E t c lines).2, rfl⟩

theorem markerFold_noop :
    ∀ (elems : List (List Char)) (nl : List Char),
      elems.foldl (fun nl e => if pyIn e nl then pyReplace nl e e else nl) nl = nl := by
  intro elems
  induction elems with
  | nil => intro nl; rfl
  | cons e es ih =>
    intro nl
    have hstep : (if pyIn e nl then pyReplace nl e e else nl) = nl := by
      cases h : pyIn e nl with
      | true => simp only [if_true]; exact pyReplace_self
      | false => simp only [Bool.false_eq_true, if_false]
    simp only [List.foldl_cons]
    rw [hstep]
    exact ih nl

/-- C9: a `rewrite` operation with `preserve_format = false` replaces every
line containing the target (as a literal substring) entirely by the new
content; with `preserve_format = true` the marker-preservation loop is a
no-op (each detected marker is replaced by itself), so the line simply has
the target substituted by the unmodified new content. -/
theorem C9_rewrite (E : RegexEngine) (lines : List (List Char)) (t c : List Char) :
    (rewrite_content E lines t c false).1 =
      lines.map (fun l => if pyIn t l then c else l) ∧
    (rewrite_content E lines t c true).1 =
      lines.map (fun l => if pyIn t l then pyReplace l t c else l) := by
  constructor
  · induction lines with
    | nil => rfl
    | cons l ls ih =>
      simp only [rewrite_content, Bool.and_false, Bool.false_eq_true, if_false, List.map_cons]
      cases hin : pyIn t l with
      | true => simp only [if_true]; rw [ih]
      | false => simp only [Bool.false_eq_true, if_false]; rw [ih]
  · induction lines with
    | nil => rfl
    | cons l ls ih =>
      simp only [rewrite_content, Bool.and_true, List.map_cons]
      cases hin : pyIn t l with
      | true =>
        simp only [if_true, markerFold_noop]
        rw [ih]
      | false => simp only [Bool.false_eq_true, if_false]; rw [ih]

/-! ## Claims about the operation batch (C4, C7) -/

theorem procLoop_error_of_unknown (E : RegexEngine) :
    ∀ (ops : List EditOp) (buf : List (List Char)) (m : Bool) (acc : List OpDetail),
      (∃ op ∈ ops, op.type ≠ "replace".toList ∧ op.type ≠ "insert".toList ∧
        op.type ≠ "rewrite".toList) →
      ∃ e, procLoop E buf m acc ops = .error e := by
  intro ops
  induction ops with
  | nil => rintro buf m acc ⟨op, hop, _⟩; cases hop
  | cons o rest ih =>
    rintro buf m acc ⟨op, hop, hbad⟩
    have hmem : o.type = "replace".toList ∨ o.type = "insert".toList ∨
        o.type = "rewrite".toList → op ∈ rest := by
      intro hgood
      rcases List.mem_cons.mp hop with rfl | h
      · rcases hgood with h1 | h1 | h1
        · exact absurd h1 hbad.1
        · exact absurd h1 hbad.2.1
        · exact absurd h1 hbad.2.2
      · exact h
    simp only [procLoop]
    by_cases h1 : o.type = "replace".toList
    · rw [if_pos h1]
      exact ih _ _ _ ⟨op, hmem (Or.inl h1), hbad⟩
    · rw [if_neg h1]
      by_cases h2 : o.type = "insert".toList
      · rw [if_pos h2]
        exact ih _ _ _ ⟨op, hmem (Or.inr (Or.inl h2)), hbad⟩
      · rw [if_neg h2]
        by_cases h3 : o.type = "rewrite".toList
        · rw [if_pos h3]
          exact ih _ _ _ ⟨op, hmem (Or.inr (Or.inr h3)), hbad⟩
        · rw [if_neg h3]
          exact ⟨_, rfl⟩

/-- C4: an operation whose type is not one of replace/insert/rewrite makes
the whole batch fail with an error, and the file is never written back:
its content after the invocation is its original content, even when
earlier operations in the batch had already changed the in-memory buffer. -/
theorem C4_unknown_type_aborts (E : RegexEngine) (lines : List (List Char))
    (ops : List EditOp)
    (h : ∃ op ∈ ops, op.type ≠ "replace".toList ∧ op.type ≠ "insert".toList ∧
      op.type ≠ "rewrite".toList) :
    (∃ e, process_operations E lines ops = .error e) ∧
    run_editor E lines ops = lines := by
  obtain ⟨e, he⟩ := procLoop_error_of_unknown E ops lines false [] h
  have hp : process_operations E lines ops = .error e := by
    simp [process_operations, he]
  exact ⟨⟨e, hp⟩, by simp [run_editor, hp]⟩

/-- The batch used to witness C4: a replace operation that does change the
buffer, followed by an operation of unknown type `"delete"`. -/
def opsBad : List EditOp :=
  [{ type := "replace".toList, target := "foo".toList, content := "bar".toList },
   { type := "delete".toList, target := "x".toList, content := "y".toList }]

/-- C4 (witness): on the buffer `["hello foo\n"]`, the batch `opsBad`
fails and leaves the file content unchanged. -/
theorem C4_witness :
    (∃ e, process_operations E0 ["hello foo\n".toList] opsBad = .error e) ∧
    run_editor E0 ["hello foo\n".toList] opsBad = ["hello foo\n".toList] :=
  C4_unknown_type_aborts E0 ["hello foo\n".toList] opsBad
    ⟨{ type := "delete".toList, target := "x".toList, content := "y".toList },
      by decide, by decide, by decide, by decide⟩

/-- The loop invariant of the per-operation records: a `replace` record
always carries a `modified_count`, present `old_content` exactly when that
count is positive; a non-`replace` record never carries a count. -/
def DetailInv (d : OpDetail) : Prop :=
  (d.type = "replace".toList →
    d.modified_count.isSome = true ∧
    (d.old_content.isSome = true ↔ 0 < d.modified_count.getD 0)) ∧
  (d.type ≠ "replace".toList → d.modified_count = none)

theorem replace_old_iff_pos (E : RegexEngine) (t c : List Char) (ir : Bool) :
    ∀ lines : List (List Char),
      ((replace_content E lines t c ir).2.2.isSome = true ↔
        0 < (replace_content E lines t c ir).2.1) := by
  intro lines
  induction lines with
  | nil => simp [replace_content]
  | cons l ls ih =>
    simp only [replace_content]
    cases ir with
    | true =>
      simp only [if_true]
      cases hms : E.findall t l with
      | nil => exact ih
      | cons m ms =>
        constructor
        · intro _; simp
        · intro _
          cases hrest : (replace_content E ls t c true).2.2 with
          | none => simp [Option.orElse]
          | some o => simp [Option.orElse]
    | false =>
      simp only [Bool.false_eq_true, if_false]
      cases hin : pyIn t l with
      | true =>
        simp only [if_true]
        constructor
        · intro _
          exact Nat.lt_of_lt_of_le (pyCount_pos hin) (Nat.le_add_right _ _)
        · intro _
          cases hrest : (replace_content E ls t c false).2.2 with
          | none => simp [Option.orElse]
          | some o => simp [Option.orElse]
      | false => simp only [Bool.false_eq_true, if_false]; exact ih


theorem procLoop_inv (E : RegexEngine) :
    ∀ (ops : List EditOp) (buf : List (List Char)) (m : Bool) (acc : List OpDetail)
      (res : List (List Char) × Bool × List OpDetail),
      procLoop E buf m acc ops = .ok res → (∀ d ∈ acc, DetailInv d) →
      ∀ d ∈ res.2.2, DetailInv d := by
  intro ops
  induction ops with
  | nil =>
    intro buf m acc res h hacc
    simp only [procLoop] at h
    cases h
    exact hacc
  | cons o rest ih =>
    intro buf m acc res h hacc
    simp only [procLoop] at h
    by_cases h1 : o.type = "replace".toList
    · rw [if_pos h1] at h
      refine ih _ _ _ _ h ?_
      intro d hd
      rcases List.mem_append.mp hd with hd | hd
      · exact hacc d hd
      · rw [List.mem_singleton.mp hd]
        refine ⟨fun _ => ⟨rfl, ?_⟩, fun hne => absurd h1 hne⟩
        by_cases hpos : 0 < (replace_content E buf o.target o.content o.is_regex).2.1
        · simp only [if_pos hpos, Option.getD_some]
          exact ⟨fun _ => hpos,
            fun _ => (replace_old_iff_pos E o.target o.content o.is_regex buf).mpr hpos⟩
        · simp only [if_neg hpos, Option.isSome_none, Option.getD_some]
          exact ⟨fun hfalse => Bool.noConfusion hfalse, fun hp => absurd hp hpos⟩
    · rw [if_neg h1] at h
      by_cases h2 : o.type = "insert".toList
      · rw [if_pos h2] at h
        refine ih _ _ _ _ h ?_
        intro d hd
        rcases List.mem_append.mp hd with hd | hd
        · exact hacc d hd
        · rw [List.mem_singleton.mp hd]
          exact ⟨fun hrep => absurd hrep h1, fun _ => rfl⟩
      · rw [if_neg h2] at h
        by_cases h3 : o.type = "rewrite".toList
        · rw [if_pos h3] at h
          refine ih _ _ _ _ h ?_
          intro d hd
          rcases List.mem_append.mp hd with hd | hd
          · exact hacc d hd
          · rw [List.mem_singleton.mp hd]
            exact ⟨fun hrep => absurd hrep h1, fun _ => rfl⟩
        · rw [if_neg h3] at h
          exact Except.noConfusion h

theorem detailTerm_eq (d : OpDetail) (hd : DetailInv d) :
    (if d.type = "replace".toList ∧ d.old_content.isSome = true then d.modified_count.getD 0
     else 0) =
    (if d.type = "replace".toList then d.modified_count.getD 0 else 0) := by
  by_cases hrep : d.type = "replace".toList
  · by_cases hold : d.old_content.isSome = true
    · rw [if_pos ⟨hrep, hold⟩, if_pos hrep]
    · rw [if_neg (fun hc => hold hc.2), if_pos hrep]
      have h0 : ¬(0 < d.modified_count.getD 0) := fun hp => hold ((hd.1 hrep).2.mpr hp)
      omega
  · rw [if_neg (fun hc => hrep hc.1), if_neg hrep]

theorem sumModifiedPositions_eq (details : List OpDetail)
    (hinv : ∀ d ∈ details, DetailInv d) :
    sumModifiedPositions details =
      (details.map fun d =>
        if d.type = "replace".toList then d.modified_count.getD 0 else 0).sum := by
  induction details with
  | nil => rfl
  | cons d ds ih =>
    have hd := hinv d (List.mem_cons_self d ds)
    have hds : ∀ x ∈ ds, DetailInv x := fun x hx => hinv x (List.mem_cons_of_mem d hx)
    have hrest := ih hds
    simp only [sumModifiedPositions, List.map_cons, List.sum_cons] at hrest ⊢
    rw [detailTerm_eq d hd, hrest]

/-- C7: for every successfully completed batch, the reported
`modified_positions` equals the sum over the per-operation records of the
`replace` operations' match counts; `insert` and `rewrite` records carry no
`modified_count` at all, so they never contribute. -/
theorem C7_modified_positions (E : RegexEngine) (lines : List (List Char))
    (ops : List EditOp) (r : ProcResult)
    (h : process_operations E lines ops = .ok r) :
    r.modified_positions =
      (r.details.map fun d =>
        if d.type = "replace".toList then d.modified_count.getD 0 else 0).sum ∧
    ∀ d ∈ r.details, d.type ≠ "replace".toList → d.modified_count = none := by
  unfold process_operations at h
  cases hp : procLoop E lines false [] ops with
  | error e => rw [hp] at h; cases h
  | ok triple =>
    rw [hp] at h
    cases h
    have hinv : ∀ d ∈ triple.2.2, DetailInv d :=
      procLoop_inv E ops lines false [] triple hp (by intro d hd; cases hd)
    constructor
    · exact sumModifiedPositions_eq triple.2.2 hinv
    · intro d hd hne
      exact (hinv d hd).2 hne

/-- Concrete buffer for the C7 witness. -/
def lines1 : List (List Char) := ["foo foo\n".toList, "baz\n".toList]

/-- Concrete batch for the C7 witness: one replace (2 matches) and one
insert. -/
def ops1 : List EditOp :=
  [{ type := "replace".toList, target := "foo".toList, content := "bar".toList },
   { type := "insert".toList, target := "baz".toList, content := "NEW".toList }]

/-- The result of running `ops1` on `lines1`. -/
def procRes1 : ProcResult :=
  { buffer := ["bar bar\n".toList, "baz\n".toList, "NEW\n".toList]
    modified := true
    details :=
      [{ type := "replace".toList, target := "foo".toList, content := "bar".toList
         position := none, old_content := some "foo foo\n".toList
         modified_count := some 2, line_number := none },
       { type := "insert".toList, target := "baz".toList, content := "NEW".toList
         position := some "after".toList, old_content := none
         modified_count := none, line_number := some 3 }]
    modified_positions := 2 }

/-- C7 (witness): on the concrete successful batch `ops1` over `lines1`,
the reported total equals the sum of the replace operations' counts. -/
theorem C7_witness :
    procRes1.modified_positions =
      (procRes1.details.map fun d =>
        if d.type = "replace".toList then d.modified_count.getD 0 else 0).sum :=
  (C7_modified_positions E0 lines1 ops1 procRes1 rfl).1

/-! ## C10: a trailing table is never emitted -/

theorem mdStep_row (imgM : List Char → Option (List Char))
    (embedOk : List Char → Bool) (σ : MdState) (r : List Char)
    (h : isTableRowLine (pyStrip r) = true) :
    mdStep imgM embedOk σ r =
      .ok (if σ.inTable then { σ with tableRows := σ.tableRows ++ [rowCells (pyStrip r)] }
           else { σ with inTable := true, tableRows := [rowCells (pyStrip r)] }) := by
  simp only [mdStep, h, if_true]

theorem mdRun_rows (imgM : List Char → Option (List Char))
    (embedOk : List Char → Bool) :
    ∀ (rows : List (List Char)) (σ : MdState),
      (∀ r ∈ rows, isTableRowLine (pyStrip r) = true) →
      ∃ σ', mdRun imgM embedOk σ rows = .ok σ' ∧ σ'.items = σ.items := by
  intro rows
  induction rows with
  | nil => intro σ _; exact ⟨σ, rfl, rfl⟩
  | cons r rows ih =>
    intro σ hall
    have hr := hall r (List.mem_cons_self r rows)
    simp only [mdRun, mdStep_row imgM embedOk σ r hr]
    obtain ⟨σ', hok, hitems⟩ :=
      ih (if σ.inTable then { σ with tableRows := σ.tableRows ++ [rowCells (pyStrip r)] }
          else { σ with inTable := true, tableRows := [rowCells (pyStrip r)] })
        (fun x hx => hall x (List.mem_cons_of_mem r hx))
    refine ⟨σ', hok, ?_⟩
    rw [hitems]
    cases σ.inTable <;> rfl

theorem mdRun_append (imgM : List Char → Option (List Char))
    (embedOk : List Char → Bool) :
    ∀ (xs : List (List Char)) (σ : MdState) (ys : List (List Char)),
      mdRun imgM embedOk σ (xs ++ ys) =
        match mdRun imgM embedOk σ xs with
        | .error e => .error e
        | .ok σ' => mdRun imgM embedOk σ' ys := by
  intro xs
  induction xs with
  | nil => intro σ ys; rfl
  | cons x xs ih =>
    intro σ ys
    simp only [List.cons_append, mdRun]
    cases mdStep imgM embedOk σ x with
    | error e => rfl
    | ok σ' => exact ih σ' ys

/-- C10: a run of table-row lines extending to the end of the input is
never emitted: appending any number of table-row lines at the end of a
markup file leaves the converter's output entirely unchanged, because a
pending table is only flushed when a later non-table line is seen. -/
theorem C10_trailing_table_dropped (imgM : List Char → Option (List Char))
    (embedOk : List Char → Bool) (pre rows : List (List Char))
    (h : ∀ r ∈ rows, isTableRowLine (pyStrip r) = true) :
    markdown_to_word imgM embedOk (pre ++ rows) =
      markdown_to_word imgM embedOk pre := by
  unfold markdown_to_word
  rw [mdRun_append]
  cases hpre : mdRun imgM embedOk
      { items := [], curPara := none, inTable := false, tableRows := [] } pre with
  | error e => rfl
  | ok σ =>
    obtain ⟨σ', hok, hitems⟩ := mdRun_rows imgM embedOk rows σ h
    dsimp only
    rw [hok]
    dsimp only
    rw [hitems]

/-- C10 (witness): the file `["x\n", "| a | b |\n", "| --- | --- |\n",
"| 1 | 2 |\n"]`, which ends in a three-row table, converts to exactly the
same document as `["x\n"]` alone — the trailing table is missing. -/
theorem C10_witness :
    markdown_to_word noImg noEmbed
      (["x\n".toList] ++
        ["| a | b |\n".toList, "| --- | --- |\n".toList, "| 1 | 2 |\n".toList]) =
      markdown_to_word noImg noEmbed ["x\n".toList] :=
  C10_trailing_table_dropped noImg noEmbed ["x\n".toList]
    ["| a | b |\n".toList, "| --- | --- |\n".toList, "| 1 | 2 |\n".toList]
    (by decide)

/-! ## C5: the chapter splitter -/

theorem tryMatch_length {c : Char} {t ti a : List Char}
    (h : tryMatch (c :: t) = some (ti, a)) : a.length ≤ t.length := by
  simp only [tryMatch] at h
  by_cases hc : c = '#'
  · rw [if_pos hc] at h
    cases hw : wsTryLen t (t.takeWhile isPyWs).length with
    | none => rw [hw] at h; cases h
    | some j =>
      rw [hw] at h
      simp only [Option.some.injEq, Prod.mk.injEq] at h
      rw [← h.2, List.length_drop, List.length_drop]
      omega
  · rw [if_neg hc] at h; cases h

theorem scanSplitFuel_congr :
    ∀ (f1 : Nat) (s : List Char) (b : Bool) (f2 : Nat),
      s.length ≤ f1 → s.length ≤ f2 →
      scanSplitFuel f1 s b = scanSplitFuel f2 s b := by
  intro f1
  induction f1 with
  | zero =>
    intro s b f2 h1 _
    have hs : s = [] := List.eq_nil_of_length_eq_zero (Nat.le_zero.mp h1)
    subst hs
    cases f2 <;> rfl
  | succ g1 ih =>
    intro s b f2 h1 h2
    cases s with
    | nil => cases f2 <;> rfl
    | cons c rest =>
      cases f2 with
      | zero => simp at h2
      | succ g2 =>
        have hr1 : rest.length ≤ g1 := by
          simp only [List.length_cons] at h1; omega
        have hr2 : rest.length ≤ g2 := by
          simp only [List.length_cons] at h2; omega
        cases b with
        | false =>
          simp only [scanSplitFuel, Bool.false_eq_true, if_false]
          rw [ih rest (c == '\n') g2 hr1 hr2]
        | true =>
          simp only [scanSplitFuel, if_true]
          cases hm : tryMatch (c :: rest) with
          | none =>
            dsimp only
            rw [ih rest (c == '\n') g2 hr1 hr2]
          | some pr =>
            obtain ⟨ti, a⟩ := pr
            have ha : a.length ≤ rest.length := tryMatch_length hm
            dsimp only
            rw [ih a false g2 (le_trans ha hr1) (le_trans ha hr2)]

theorem lineStartAfter_cons (c : Char) (p : List Char) (b : Bool) :
    lineStartAfter (c :: p) b = lineStartAfter p (c == '\n') := rfl

theorem scanSplitFuel_cons_noMatch (g : Nat) (c : Char) (rest : List Char) (b : Bool)
    (h : b = true → tryMatch (c :: rest) = none) :
    scanSplitFuel (g + 1) (c :: rest) b =
      (c :: (scanSplitFuel g rest (c == '\n')).1,
       (scanSplitFuel g rest (c == '\n')).2) := by
  cases b with
  | false => rfl
  | true =>
    show (match tryMatch (c :: rest) with
      | some (title, after) =>
        ([], (title, (scanSplitFuel g after false).1) :: (scanSplitFuel g after false).2)
      | none =>
        (c :: (scanSplitFuel g rest (c == '\n')).1,
         (scanSplitFuel g rest (c == '\n')).2)) =
      (c :: (scanSplitFuel g rest (c == '\n')).1,
       (scanSplitFuel g rest (c == '\n')).2)
    rw [h rfl]

theorem scan_append_noMatch :
    ∀ (p s : List Char) (b : Bool) (f : Nat),
      (p ++ s).length ≤ f → noMatchThrough p s b = true →
      scanSplitFuel f (p ++ s) b =
        (p ++ (scanSplitFuel f s (lineStartAfter p b)).1,
         (scanSplitFuel f s (lineStartAfter p b)).2) := by
  intro p
  induction p with
  | nil =>
    intro s b f _ _
    simp [lineStartAfter]
  | cons c p' ih =>
    intro s b f hf hnm
    simp only [noMatchThrough, Bool.and_eq_true, Bool.or_eq_true, Bool.not_eq_true'] at hnm
    obtain ⟨hhead, hrest⟩ := hnm
    cases f with
    | zero => simp at hf
    | succ g =>
      have hg : (p' ++ s).length ≤ g := by
        simp only [List.cons_append, List.length_cons] at hf; omega
      have hs : s.length ≤ g := by
        simp only [List.length_append] at hg; omega
      have h3 : b = true → tryMatch (c :: (p' ++ s)) = none := by
        intro hb
        rcases hhead with hfalse | hnone
        · rw [hb] at hfalse; cases hfalse
        · exact Option.isNone_iff_eq_none.mp hnone
      rw [List.cons_append, scanSplitFuel_cons_noMatch g c (p' ++ s) b h3,
        ih s (c == '\n') g hg hrest, lineStartAfter_cons]
      rw [scanSplitFuel_congr g s (lineStartAfter p' (c == '\n')) (g + 1) hs
        (Nat.le_succ_of_le hs)]
      simp

/-- C5 (amended): with top-level headings defined by the code's split
pattern (`^#\s+(.+)$` at a line start: `'#'`, one or more whitespace
characters, then a non-empty run of non-newline characters to the end of
the line), the splitter produces exactly one chapter file per pattern
match, every produced file is of the form `"# " ++ <stripped title> ++
"\n\n" ++ <following section>`, and content before the first match is
discarded: prepending any match-free text ending at a line boundary leaves
the produced chapter files unchanged. -/
theorem C5_amended (content : List Char) :
    (split_markdown content).length = (scanSplit content).2.length ∧
    (∀ file ∈ split_markdown content, ∃ t c,
      file = "# ".toList ++ pyStrip t ++ "\n\n".toList ++ c) ∧
    (∀ p rest : List Char, noMatchThrough p rest true = true →
      lineStartAfter p true = true →
      split_markdown (p ++ rest) = split_markdown rest) := by
  refine ⟨by simp [split_markdown], ?_, ?_⟩
  · intro file hf
    obtain ⟨ts, _, hfe⟩ := List.mem_map.mp hf
    exact ⟨ts.1, ts.2, hfe.symm⟩
  · intro p rest hnm hls
    unfold split_markdown scanSplit
    rw [scan_append_noMatch p rest true (p ++ rest).length (le_refl _) hnm, hls]
    rw [scanSplitFuel_congr (p ++ rest).length rest true rest.length
      (by rw [List.length_append]; omega) (le_refl _)]

/-- C5 (counterexample): the document `"#\tT\nbody\n"` contains zero
top-level headings in the claim's sense (`'#'` followed by a space and a
non-empty title) — its first line uses a tab — yet the splitter, whose
pattern accepts any whitespace after `'#'`, produces one chapter file, not
zero. -/
theorem C5_counterexample :
    specHeadingCount "#\tT\nbody\n".toList = 0 ∧
    (split_markdown "#\tT\nbody\n".toList).length = 1 := ⟨rfl, rfl⟩

/-- C5 (witness): prepending the match-free preamble `"pre\n"` to
`"# A\nbody\n"` leaves the produced chapters unchanged, and the single
chapter file produced from `"# A\nbody\n"` has the stated `"# <title>"`
shape. -/
theorem C5_witness :
    split_markdown ("pre\n".toList ++ "# A\nbody\n".toList) =
      split_markdown "# A\nbody\n".toList ∧
    (∃ t c, ("# A\n\n\nbody\n".toList : List Char) =
      "# ".toList ++ pyStrip t ++ "\n\n".toList ++ c) :=
  ⟨(C5_amended ("pre\n".toList ++ "# A\nbody\n".toList)).2.2 "pre\n".toList
      "# A\nbody\n".toList (by decide) (by decide),
   (C5_amended "# A\nbody\n".toList).2.1 "# A\n\n\nbody\n".toList (by decide)⟩
